import Mathlib

/-!
Shallow embedding of the header-normalization and row-unification engine of
`app.py` (Excel sheet unifier).  Python/pandas/openpyxl values are embedded as
follows: spreadsheet cell values become the closed variant `PyVal`
(string / integer / missing), a worksheet becomes a header row of optional
strings plus a list of data rows of cells, a pandas `DataFrame` becomes a
`Table` (ordered column names plus rows of `PyVal`), and a Python exception
becomes `Except.error`.  All definitions are executable.
-/

namespace Herramientas

/-- Cell payload: a Python string, an integer, or a missing value
(`None` / pandas `NaN`). -/
inductive PyVal where
  | str (s : String)
  | int (n : Int)
  | none
deriving DecidableEq, Repr

/-- ASCII whitespace stripped by Python `str.strip()` (space, tab, newline,
carriage return, vertical tab, form feed).  The full Unicode whitespace set of
`str.strip` is not modelled; headers in scope are ASCII/Latin-1. -/
def wsChar (c : Char) : Bool :=
  c.toNat == 32 || c.toNat == 9 || c.toNat == 10 || c.toNat == 13 ||
  c.toNat == 11 || c.toNat == 12

/-- Lowercase ASCII letter or digit, the character class `[a-z0-9]` of the
regex in `canonicalize` (app.py line 65). -/
def isLowerAlnum (c : Char) : Bool :=
  (48 ≤ c.toNat && c.toNat ≤ 57) || (97 ≤ c.toNat && c.toNat ≤ 122)

/-- ASCII fragment of Python `str.lower()` (app.py line 61).  Non-ASCII
uppercase accented letters are handled by `deaccent` below, which maps them
directly to their lowercase base letter, matching `lower()` followed by NFKD
decomposition and combining-mark removal. -/
def lowerChar (c : Char) : Char :=
  if 65 ≤ c.toNat ∧ c.toNat ≤ 90 then Char.ofNat (c.toNat + 32) else c

/-- Accented Latin letters and the lowercase base letter that
`unicodedata.normalize("NFKD", ·)` plus combining-mark removal (app.py
lines 62-64) produces for them after `lower()`.  Modelled as a finite table
over the Latin-1 letters occurring in Spanish-language headers; characters
outside the table are left unchanged (any such character outside `[a-z0-9]`
is subsequently replaced by an underscore, as in the Python code). -/
def accentPairs : List (Char × Char) :=
  [('á', 'a'), ('à', 'a'), ('â', 'a'), ('ä', 'a'), ('ã', 'a'), ('å', 'a'),
   ('Á', 'a'), ('À', 'a'), ('Â', 'a'), ('Ä', 'a'), ('Ã', 'a'), ('Å', 'a'),
   ('é', 'e'), ('è', 'e'), ('ê', 'e'), ('ë', 'e'),
   ('É', 'e'), ('È', 'e'), ('Ê', 'e'), ('Ë', 'e'),
   ('í', 'i'), ('ì', 'i'), ('î', 'i'), ('ï', 'i'),
   ('Í', 'i'), ('Ì', 'i'), ('Î', 'i'), ('Ï', 'i'),
   ('ó', 'o'), ('ò', 'o'), ('ô', 'o'), ('ö', 'o'), ('õ', 'o'),
   ('Ó', 'o'), ('Ò', 'o'), ('Ô', 'o'), ('Ö', 'o'), ('Õ', 'o'),
   ('ú', 'u'), ('ù', 'u'), ('û', 'u'), ('ü', 'u'),
   ('Ú', 'u'), ('Ù', 'u'), ('Û', 'u'), ('Ü', 'u'),
   ('ñ', 'n'), ('Ñ', 'n'), ('ç', 'c'), ('Ç', 'c'),
   ('ý', 'y'), ('ÿ', 'y'), ('Ý', 'y')]

/-- Replace an accented Latin letter by its base letter (see `accentPairs`). -/
def deaccent (c : Char) : Char :=
  (accentPairs.lookup c).getD c

/-- Combining diacritical mark (U+0300 – U+036F), dropped by the
`unicodedata.combining` filter in `canonicalize` (app.py lines 62-64). -/
def isCombining (c : Char) : Bool :=
  768 ≤ c.toNat && c.toNat ≤ 879

/-- One character of `re.sub(r"[^a-z0-9]", "_", text)` (app.py line 65). -/
def substChar (c : Char) : Char :=
  if isLowerAlnum c then c else '_'

/-- Collapse every run of two or more underscores to a single underscore:
`re.sub(r"__+", "_", text)` (app.py line 66). -/
def collapseUnd : List Char → List Char
  | [] => []
  | [c] => [c]
  | c :: d :: rest =>
    if c = '_' ∧ d = '_' then collapseUnd (d :: rest)
    else c :: collapseUnd (d :: rest)

/-- Python `str.strip(chars)`: drop the characters satisfying `p` from both
ends of the list. -/
def stripEnds (p : Char → Bool) (cs : List Char) : List Char :=
  ((cs.dropWhile p).reverse.dropWhile p).reverse

/-- Character-list body of `canonicalize` (app.py lines 59-66):
strip whitespace, lowercase, drop diacritics, replace every character outside
`[a-z0-9]` by `_`, collapse underscore runs, strip outer underscores. -/
def canonList (cs : List Char) : List Char :=
  let s1 := stripEnds wsChar cs
  let s2 := (s1.map lowerChar).map deaccent
  let s3 := s2.filter (fun c => !isCombining c)
  let s4 := s3.map substChar
  stripEnds (fun c => c == '_') (collapseUnd s4)

/-- Embedding of `canonicalize` (app.py lines 59-66): lowercase without accents or
symbols, separated by underscores. -/
def canonicalize (s : String) : String :=
  String.mk (canonList s.data)

/-- Embedding of `slugify` (app.py lines 69-70): `canonicalize(name) or "default"`. -/
def slugify (name : String) : String :=
  if canonicalize name = "" then "default" else canonicalize name

/-- The inline mapping resolution of `unify_workbook` (app.py lines 192 and
200) and the published contract `resolve_destination` (spec §6):
`mapping.get(orig, mapping.get(canonicalize(orig), canonicalize(orig)))`.
The Python dict is embedded as an association list with unique keys. -/
def resolve_destination (raw : String) (mapping : List (String × String)) : String :=
  match mapping.lookup raw with
  | some v => v
  | Option.none =>
    match mapping.lookup (canonicalize raw) with
    | some v => v
    | Option.none => canonicalize raw

/-- A spreadsheet cell: a value plus an optional hyperlink target
(openpyxl `cell.value` / `cell.hyperlink.target`). -/
structure Cell where
  value : PyVal
  hyperlink : Option String
deriving DecidableEq, Repr

/-- A worksheet: its header row (row 1 cell values, `Option.none` models an
empty cell read back as Python `None`) and its data rows (rows ≥ 2). -/
structure Sheet where
  header : List (Option String)
  rows : List (List Cell)
deriving DecidableEq, Repr

/-- Embedding of `workbook_columns` (app.py lines 73-80): per sheet, the header values
with blank cells replaced by the positional placeholder `col_<n>`
(`c.value or f"col_{i+1}"`, 1-indexed). -/
def workbook_columns (wb : List Sheet) : List (List String) :=
  wb.map (fun ws => ws.header.enum.map (fun p =>
    match p.2 with
    | some s => if s = "" then "col_" ++ toString (p.1 + 1) else s
    | Option.none => "col_" ++ toString (p.1 + 1)))

/-- Formula string `=HYPERLINK(...)` built by `unify_workbook`
(app.py lines 210 and 212): first argument the target, second the display
text.  This string is the link-pair encoding: a spreadsheet viewer renders it
as a clickable link labelled with the display text. -/
def hyperFormula (target display : String) : String :=
  "=HYPERLINK(\"" ++ target ++ "\", \"" ++ display ++ "\")"

/-- Python `str()` of an embedded value, as used by the f-string
interpolation in app.py line 210. -/
def pyStr : PyVal → String
  | PyVal.str s => s
  | PyVal.int n => toString n
  | PyVal.none => "None"

/-- Literal-prefix matcher: drop `pat` from the head of the character list if
it is present there, returning the remainder. -/
def dropPref : List Char → List Char → Option (List Char)
  | [], cs => some cs
  | _ :: _, [] => Option.none
  | p :: ps, c :: cs => if p = c then dropPref ps cs else Option.none

/-- Test of `re.match(r"https?://", value)` (app.py line 211): the value starts with
`http://` or `https://`. -/
def isHttpUrl (s : String) : Bool :=
  (dropPref ("http://").data s.data).isSome || (dropPref ("https://").data s.data).isSome

/-- The value a source cell contributes to the output row
(app.py lines 209-214): a cell with a hyperlink becomes a
`=HYPERLINK(target, str(value))` formula; a bare-URL string becomes a
`=HYPERLINK(value, value)` formula; any other value passes through. -/
def cellOutValue (c : Cell) : PyVal :=
  match c.hyperlink with
  | some t => PyVal.str (hyperFormula t (pyStr c.value))
  | Option.none =>
    match c.value with
    | PyVal.str s => if isHttpUrl s then PyVal.str (hyperFormula s s) else PyVal.str s
    | v => v

/-- One step of the destination-order accumulation (app.py lines 193-194):
`if dest not in headers_final: headers_final.append(dest)`. -/
def insDest (acc : List String) (d : String) : List String :=
  if d ∈ acc then acc else acc ++ [d]

/-- The resolved destination of every header cell of a sheet, in order
(app.py lines 190-192 and 198-201; `orig or ""` replaces a blank header by
the empty string before resolution). -/
def sheetDests (mapping : List (String × String)) (ws : Sheet) : List String :=
  ws.header.map (fun h => resolve_destination (h.getD "") mapping)

/-- Header pass of `unify_workbook` (app.py lines 189-194): the global
destination-column order, first-seen across sheets then left-to-right. -/
def headersFinal (mapping : List (String × String)) (wb : List Sheet) : List String :=
  wb.foldl (fun acc ws => (sheetDests mapping ws).foldl insDest acc) []

/-- Row pass inner loop of `unify_workbook` (app.py lines 204-215), cells
processed from index `idx` on: skip a cell whose destination is missing or
empty, otherwise overwrite the output slot at the destination's position. -/
def fillRowAux (hf : List String) (i2d : List String) :
    Nat → List Cell → List PyVal → List PyVal
  | _, [], acc => acc
  | idx, c :: rest, acc =>
    let d := i2d.getD idx ""
    fillRowAux hf i2d (idx + 1) rest
      (if d = "" then acc else acc.set (hf.indexOf d) (cellOutValue c))

/-- Row pass of `unify_workbook` for one data row (app.py lines 204-215):
start from `[""] * len(headers_final)` and write each contributing cell. -/
def fillRow (hf : List String) (i2d : List String) (row : List Cell) : List PyVal :=
  fillRowAux hf i2d 0 row (List.replicate hf.length (PyVal.str ""))

/-- Embedding of `unify_workbook` (app.py lines 177-219): the destination-column order and
the unified rows of all sheets, as the resulting DataFrame's columns/rows. -/
def unify_workbook (wb : List Sheet) (mapping : List (String × String)) :
    List String × List (List PyVal) :=
  let hf := headersFinal mapping wb
  (hf, (wb.map (fun ws => ws.rows.map (fillRow hf (sheetDests mapping ws)))).flatten)

/-- A pandas DataFrame: ordered column labels plus rows of values. -/
structure Table where
  cols : List String
  rows : List (List PyVal)
deriving DecidableEq, Repr

/-- Value of row `r` at the column labelled `c` (pandas `df[c]` for one row;
columns in scope are unique). -/
def rowGet (cols : List String) (r : List PyVal) (c : String) : PyVal :=
  r.getD (cols.indexOf c) PyVal.none

/-- Scalar column assignment `df[name] = v` (app.py line 227): overwrite the
column if the label exists, otherwise append it. -/
def assignCol (t : Table) (name : String) (v : PyVal) : Table :=
  if name ∈ t.cols then
    { cols := t.cols, rows := t.rows.map (fun r => r.set (t.cols.indexOf name) v) }
  else
    { cols := t.cols ++ [name], rows := t.rows.map (fun r => r ++ [v]) }

/-- Embedding of `pd.concat(frames, ignore_index=True)` (app.py line 229): column labels
are the first-seen union across frames; rows are stacked, a column missing
from a frame's label set is filled with the missing value for its rows. -/
def concatTables (ts : List Table) : Table :=
  let cols := ts.foldl (fun acc t => acc ++ t.cols.filter (fun c => !(acc.contains c))) []
  { cols := cols,
    rows := (ts.map (fun t => t.rows.map (fun r =>
      cols.map (fun c => if t.cols.contains c then rowGet t.cols r c else PyVal.none)))).flatten }

/-- Split a character list on a separator character (the semantics of
`String.splitOn` for a one-character separator). -/
def splitOnChar (sep : Char) : List Char → List (List Char)
  | [] => [[]]
  | c :: rest =>
    let r := splitOnChar sep rest
    if c = sep then [] :: r
    else
      match r with
      | [] => [[c]]
      | h :: t => (c :: h) :: t

/-- Last element after splitting on `/`, skipping empty and `.` components:
`pathlib.PurePosixPath(s).name`. -/
def pathName (s : String) : String :=
  (((splitOnChar '/' s.data).map String.mk).filter
    (fun p => !(p == "") && !(p == "."))).getLastD ""

/-- Index of the last `.` in the character list (CPython `str.rfind(".")`). -/
def lastDotIdx (cs : List Char) : Option Nat :=
  ((cs.enum.filter (fun p => p.2 == '.')).getLast?).map (fun p => p.1)

/-- Embedding of `pathlib.Path(name).stem` (app.py line 227): the final path component
without its last suffix, per CPython (`0 < i < len(name) - 1`). -/
def pathStem (s : String) : String :=
  let n := (pathName s).data
  match lastDotIdx n with
  | some i => if 0 < i ∧ i < n.length - 1 then String.mk (n.take i) else String.mk n
  | Option.none => String.mk n

/-- Embedding of `unify_files` (app.py lines 222-229): unify each workbook, assign the
`archivo_origen` column with the source filename's stem, and concatenate. -/
def unify_files (files : List (String × List Sheet))
    (mapping : List (String × String)) : Table :=
  match files with
  | [] => { cols := [], rows := [] }
  | _ =>
    concatTables (files.map (fun f =>
      assignCol
        { cols := (unify_workbook f.2 mapping).1, rows := (unify_workbook f.2 mapping).2 }
        "archivo_origen" (PyVal.str (pathStem f.1))))

/-- One `<noticia>` record of the parsed XML document: its `Url_Noticia`
text and its `FullText` text, both defaulting to the empty string
(`findtext(..., "")`, app.py lines 146 and 152). -/
structure Noticia where
  url : String
  fullText : String
deriving DecidableEq, Repr

/-- ASCII digit, the `\d` class of `CODE_RE` (Python regex on ASCII URLs). -/
def digitChar (c : Char) : Bool :=
  48 ≤ c.toNat && c.toNat ≤ 57

/-- Attempt `CODE_RE` at the current position: one of the literal segments
`/index/1/` or `/VerNoticia/` followed by one or more digits (greedy). -/
def tryCode (cs : List Char) : Option String :=
  match dropPref ("/index/1/").data cs with
  | some rest =>
    let ds := rest.takeWhile digitChar
    if ds = [] then Option.none else some (String.mk ds)
  | Option.none =>
    match dropPref ("/VerNoticia/").data cs with
    | some rest =>
      let ds := rest.takeWhile digitChar
      if ds = [] then Option.none else some (String.mk ds)
    | Option.none => Option.none

/-- Embedding of `CODE_RE.search` (`re.search` leftmost-match semantics): try the pattern
at every position left to right. -/
def searchCode : List Char → Option String
  | [] => Option.none
  | c :: rest =>
    match tryCode (c :: rest) with
    | some code => some code
    | Option.none => searchCode rest

/-- Python `str.strip()` on a string. -/
def pyStrip (s : String) : String :=
  String.mk (stripEnds wsChar s.data)

/-- Helper for `dedupByFirst`: drop every row whose key was already seen. -/
def dedupByFirstAux (seen : List String) : List (String × String) → List (String × String)
  | [] => []
  | p :: rest =>
    if p.1 ∈ seen then dedupByFirstAux seen rest
    else p :: dedupByFirstAux (p.1 :: seen) rest

/-- Embedding of `pd.DataFrame.drop_duplicates("codigo")`: keep the first row for each
code (pandas default `keep="first"`), preserving order. -/
def dedupByFirst (l : List (String × String)) : List (String × String) :=
  dedupByFirstAux [] l

/-- Embedding of `build_text_df` (app.py lines 141-155) on an already-parsed document:
collect `(codigo, texto.strip())` for every record whose URL matches
`CODE_RE`, then `pd.DataFrame(rows).drop_duplicates("codigo")`.  When no
record matches, `rows` is empty, `pd.DataFrame([])` has no columns, and
`drop_duplicates("codigo")` raises `KeyError` — embedded as `Except.error`. -/
def build_text_df (doc : List Noticia) : Except Unit (List (String × String)) :=
  let rows := doc.filterMap (fun n =>
    (searchCode n.url.data).map (fun code => (code, pyStrip n.fullText)))
  if rows = [] then Except.error () else Except.ok (dedupByFirst rows)

/-- Series column assignment `df[name] = series` (app.py line 171): one
value per row; overwrite the column in place if the label exists, otherwise
append it.  `vals` has one entry per row. -/
def assignColVals (t : Table) (name : String) (vals : List PyVal) : Table :=
  if name ∈ t.cols then
    { cols := t.cols,
      rows := (t.rows.zip vals).map (fun p => p.1.set (t.cols.indexOf name) p.2) }
  else
    { cols := t.cols ++ [name], rows := (t.rows.zip vals).map (fun p => p.1 ++ [p.2]) }

/-- Left-frame labels after a pandas merge: a label also present in the
right frame gets the `_x` suffix. -/
def suffixLeft (L R : List String) : List String :=
  L.map (fun c => if R.contains c then c ++ "_x" else c)

/-- Right-frame labels after a pandas merge: a label also present in the
left frame gets the `_y` suffix. -/
def suffixRight (L R : List String) : List String :=
  R.map (fun c => if L.contains c then c ++ "_y" else c)

/-- Embedding of `left.merge(right, left_on=lkey, right_on=rkey, how="left")`
(app.py line 172) for a right frame whose `rkey` values are unique (as
guaranteed by `drop_duplicates`): each left row is extended with the first
matching right row, or with missing values when no right key equals the left
key; overlapping labels are suffixed `_x`/`_y` as pandas does. -/
def mergeLeftOnRight (left right : Table) (lkey rkey : String) : Table :=
  { cols := suffixLeft left.cols right.cols ++ suffixRight left.cols right.cols,
    rows := left.rows.map (fun r =>
      let key := rowGet left.cols r lkey
      match right.rows.find? (fun rr => rowGet right.cols rr rkey == key) with
      | some rr => r ++ rr
      | Option.none => r ++ right.cols.map (fun _ => PyVal.none)) }

/-- Embedding of `df.drop(columns=names)` (app.py line 173): removes every
column whose label is in `names`; raises `KeyError` (embedded as
`Except.error`) when one of the labels is absent, as pandas does. -/
def dropCols (t : Table) (names : List String) : Except Unit Table :=
  if names.all (fun n => t.cols.contains n) then
    Except.ok
      { cols := t.cols.filter (fun c => !(names.contains c)),
        rows := t.rows.map (fun r =>
          ((t.cols.zip r).filter (fun p => !(names.contains p.1))).map Prod.snd) }
  else Except.error ()

/-- The DataFrame produced by `build_text_df`: columns `codigo`, `texto`. -/
def textTable (textDf : List (String × String)) : Table :=
  ⟨["codigo", "texto"], textDf.map (fun p => [PyVal.str p.1, PyVal.str p.2])⟩

/-- Embedding of `add_text_column` (app.py lines 158-174).  `Option.none`
for the second argument models empty/absent XML bytes
(`if not xml_bytes: return df`).  The pandas pipeline is embedded step by
step: assign the `codigo_link` column from `str.extract(CODE_RE)` (a digit
string per matching row, the missing value otherwise), left-merge against
`build_text_df`'s frame on `codigo_link = codigo` with pandas `_x`/`_y`
suffixing of overlapping labels, then drop the two key columns — which, as
in pandas, raises `KeyError` when a label to drop is missing (e.g. when the
incoming table already had a `codigo` column, so that both `codigo` columns
were suffixed away by the merge). -/
def add_text_column (df : Table) (xmlDoc : Option (List Noticia)) : Except Unit Table :=
  match xmlDoc with
  | Option.none => Except.ok df
  | some doc =>
    match df.cols.find? (fun c => canonicalize c == "url_noticia") with
    | Option.none => Except.ok df
    | some colUrl =>
      match build_text_df doc with
      | Except.error e => Except.error e
      | Except.ok textDf =>
        let keys := df.rows.map (fun r =>
          match searchCode (pyStr (rowGet df.cols r colUrl)).data with
          | some k => PyVal.str k
          | Option.none => PyVal.none)
        let df2 := assignColVals df "codigo_link" keys
        let merged := mergeLeftOnRight df2 (textTable textDf) "codigo_link" "codigo"
        dropCols merged ["codigo_link", "codigo"]

/-- A character that can appear in a canonical key: lowercase ASCII
alphanumeric or underscore. -/
def keepChar (c : Char) : Prop := isLowerAlnum c = true ∨ c = '_'

/-- The adjacency relation of a collapsed key: no two neighbouring
underscores. -/
def RU (a b : Char) : Prop := ¬(a = '_' ∧ b = '_')

/-- Default cell used with `List.getD` on data rows (never reached when the
index is in range). -/
def dfltCell : Cell := ⟨PyVal.none, Option.none⟩

/-- The value the row pass leaves at output position `j`, tracked cell by
cell: the last cell (scanning left to right from index `idx`) whose
destination is non-empty and sits at position `j` of the final header list
overwrites the running value. -/
def curValAux (hf i2d : List String) (j : Nat) : Nat → List Cell → PyVal → PyVal
  | _, [], v => v
  | idx, c :: rest, v =>
    let d := i2d.getD idx ""
    curValAux hf i2d j (idx + 1) rest
      (if d ≠ "" ∧ hf.indexOf d = j then cellOutValue c else v)

/-- A single-sheet workbook whose only header cell is blank, with one data
row. -/
def wbBlankHeader : List Sheet :=
  [⟨[Option.none], [[⟨PyVal.str "x", Option.none⟩]]⟩]

/-- The single-sheet workbook of the spec's "unmapped column" scenario:
one header `"***"` (which canonicalizes to the empty string) and one data
row. -/
def sheetStars : Sheet := ⟨[some "***"], [[⟨PyVal.str "v", Option.none⟩]]⟩

/-- Workbook containing only `sheetStars`. -/
def wbStars : List Sheet := [sheetStars]

/-- A sheet whose two headers `"A"` and `"a"` both resolve to destination
`"a"` under the empty mapping. -/
def sheetDup : Sheet :=
  ⟨[some "A", some "a"],
   [[⟨PyVal.str "1", Option.none⟩, ⟨PyVal.str "2", Option.none⟩]]⟩

/-- Concrete pieces for the multi-file witness: one shared header, three and
five data rows. -/
def hdrW : List (Option String) := [some "H"]

/-- Three one-cell data rows. -/
def rows1W : List (List Cell) :=
  [[⟨PyVal.str "1", Option.none⟩], [⟨PyVal.str "2", Option.none⟩], [⟨PyVal.str "3", Option.none⟩]]

/-- Five one-cell data rows. -/
def rows2W : List (List Cell) :=
  [[⟨PyVal.str "4", Option.none⟩], [⟨PyVal.str "5", Option.none⟩], [⟨PyVal.str "6", Option.none⟩],
   [⟨PyVal.str "7", Option.none⟩], [⟨PyVal.str "8", Option.none⟩]]

/-- The document of the join scenario: one record with URL
`https://sitio/index/1/12345` and text `Hello`. -/
def docJoin : List Noticia := [⟨"https://sitio/index/1/12345", "Hello"⟩]

/-- A one-row table whose `Url_Noticia` cell matches no code. -/
def dfNoMatch : Table := ⟨["Url_Noticia"], [[PyVal.str "nope"]]⟩

/-- A two-row table: one matching URL, one without a code. -/
def dfJoinW : Table :=
  ⟨["Url_Noticia"], [[PyVal.str "https://x/VerNoticia/12345"], [PyVal.str "nope"]]⟩

/-! Section: Canonicalizer: characterization of outputs and idempotence -/

lemma keep_toNat {c : Char} (h : keepChar c) :
    (48 ≤ c.toNat ∧ c.toNat ≤ 57) ∨ (97 ≤ c.toNat ∧ c.toNat ≤ 122) ∨ c.toNat = 95 := by
  rcases h with h | rfl
  · simp only [isLowerAlnum, Bool.or_eq_true, Bool.and_eq_true, decide_eq_true_eq] at h
    tauto
  · right; right; rfl

lemma keep_not_ws {c : Char} (h : keepChar c) : wsChar c = false := by
  have h2 := keep_toNat h
  simp only [wsChar, Bool.or_eq_false_iff, beq_eq_false_iff_ne, ne_eq]
  omega

lemma keep_lower {c : Char} (h : keepChar c) : lowerChar c = c := by
  have h2 := keep_toNat h
  unfold lowerChar
  rw [if_neg (by omega)]

lemma lookup_none_of_ne {α β : Type} [BEq α] [LawfulBEq α] (l : List (α × β)) (a : α)
    (h : ∀ p ∈ l, ¬ a = p.1) : l.lookup a = Option.none := by
  induction l with
  | nil => rfl
  | cons p t ih =>
    have hne : (a == p.1) = false := beq_eq_false_iff_ne.mpr (h p (by simp))
    obtain ⟨k, b⟩ := p
    simp only [List.lookup, hne]
    exact ih (fun q hq => h q (by simp [hq]))

lemma keep_deaccent {c : Char} (h : keepChar c) : deaccent c = c := by
  have h2 := keep_toNat h
  have hk : ∀ p ∈ accentPairs, 192 ≤ p.1.toNat := by decide
  have hnone : accentPairs.lookup c = Option.none := by
    refine lookup_none_of_ne _ _ (fun p hp he => ?_)
    have h3 := hk p hp
    have h4 : c.toNat = p.1.toNat := congrArg Char.toNat he
    omega
  rw [deaccent, hnone]
  rfl

lemma keep_not_combining {c : Char} (h : keepChar c) : isCombining c = false := by
  have h2 := keep_toNat h
  simp only [isCombining, Bool.and_eq_false_iff, decide_eq_false_iff_not, not_le]
  omega

lemma keep_subst {c : Char} (h : keepChar c) : substChar c = c := by
  rcases h with h | rfl
  · rw [substChar, if_pos h]
  · rfl

lemma subst_keep (c : Char) : keepChar (substChar c) := by
  unfold substChar
  by_cases h : isLowerAlnum c
  · rw [if_pos h]; exact Or.inl h
  · rw [if_neg h]; exact Or.inr rfl

lemma mem_collapseUnd {c : Char} : ∀ {l : List Char}, c ∈ collapseUnd l → c ∈ l
  | [], h => by simp [collapseUnd] at h
  | [d], h => by simpa [collapseUnd] using h
  | a :: d :: rest, h => by
    rw [collapseUnd] at h
    by_cases hc : a = '_' ∧ d = '_'
    · rw [if_pos hc] at h
      exact List.mem_cons_of_mem a (mem_collapseUnd h)
    · rw [if_neg hc] at h
      rcases List.mem_cons.mp h with h | h
      · exact h ▸ List.mem_cons_self a _
      · exact List.mem_cons_of_mem a (mem_collapseUnd h)

lemma mem_stripEnds {p : Char → Bool} {c : Char} {l : List Char}
    (h : c ∈ stripEnds p l) : c ∈ l := by
  unfold stripEnds at h
  rw [List.mem_reverse] at h
  have h1 := (List.dropWhile_suffix p).sublist.mem h
  rw [List.mem_reverse] at h1
  exact (List.dropWhile_suffix p).sublist.mem h1

lemma canonList_keep {cs : List Char} : ∀ c ∈ canonList cs, keepChar c := by
  intro c hc
  unfold canonList at hc
  have h1 := mem_collapseUnd (mem_stripEnds hc)
  obtain ⟨d, _, rfl⟩ := List.mem_map.mp h1
  exact subst_keep d

lemma collapseUnd_head : ∀ (x : Char) (xs : List Char),
    (collapseUnd (x :: xs)).head? = some x
  | x, [] => by simp [collapseUnd]
  | x, y :: r => by
    rw [collapseUnd]
    by_cases hc : x = '_' ∧ y = '_'
    · rw [if_pos hc, collapseUnd_head y r, hc.1, hc.2]
    · rw [if_neg hc]
      rfl

lemma chain'_collapseUnd : ∀ (l : List Char), (collapseUnd l).Chain' RU
  | [] => by simp [collapseUnd]
  | [c] => by simp [collapseUnd]
  | a :: d :: rest => by
    rw [collapseUnd]
    by_cases hc : a = '_' ∧ d = '_'
    · rw [if_pos hc]
      exact chain'_collapseUnd (d :: rest)
    · rw [if_neg hc]
      refine List.chain'_cons'.mpr ⟨?_, chain'_collapseUnd (d :: rest)⟩
      intro y hy
      rw [collapseUnd_head d rest] at hy
      cases hy
      exact hc

lemma collapseUnd_eq_self : ∀ {l : List Char}, l.Chain' RU → collapseUnd l = l
  | [], _ => rfl
  | [c], _ => rfl
  | a :: d :: rest, h => by
    obtain ⟨had, h2⟩ := List.chain'_cons.mp h
    rw [collapseUnd, if_neg had, collapseUnd_eq_self h2]

lemma chain'_reverse_RU {l : List Char} (h : l.Chain' RU) : l.reverse.Chain' RU :=
  List.chain'_reverse.mpr (h.imp (fun _ _ hab ⟨h1, h2⟩ => hab ⟨h2, h1⟩))

lemma chain'_stripEnds {p : Char → Bool} {l : List Char} (h : l.Chain' RU) :
    (stripEnds p l).Chain' RU := by
  unfold stripEnds
  exact chain'_reverse_RU
    ((chain'_reverse_RU (h.suffix (List.dropWhile_suffix p))).suffix (List.dropWhile_suffix p))

lemma dropWhile_head_false {p : Char → Bool} :
    ∀ {l : List Char} {c : Char} {t : List Char}, l.dropWhile p = c :: t → p c = false := by
  intro l
  induction l with
  | nil => intro c t h; simp at h
  | cons a l ih =>
    intro c t h
    rw [List.dropWhile_cons] at h
    by_cases hp : p a
    · rw [if_pos hp] at h
      exact ih h
    · rw [if_neg hp] at h
      cases h
      simp only [Bool.not_eq_true] at hp
      exact hp

lemma dropWhile_of_head_false {p : Char → Bool} {l : List Char}
    (h : ∀ c t, l = c :: t → p c = false) : l.dropWhile p = l := by
  cases l with
  | nil => rfl
  | cons c t => rw [List.dropWhile_cons, h c t rfl]; simp

lemma dropWhile_eq_self_of_all {p : Char → Bool} {l : List Char}
    (h : ∀ c ∈ l, p c = false) : l.dropWhile p = l :=
  dropWhile_of_head_false (fun c t hl => h c (by rw [hl]; exact List.mem_cons_self c t))

lemma stripEnds_eq_self_of_all {p : Char → Bool} {l : List Char}
    (h : ∀ c ∈ l, p c = false) : stripEnds p l = l := by
  unfold stripEnds
  rw [dropWhile_eq_self_of_all h,
    dropWhile_eq_self_of_all (fun c hc => h c (List.mem_reverse.mp hc)),
    List.reverse_reverse]

lemma stripEnds_idem (p : Char → Bool) (l : List Char) :
    stripEnds p (stripEnds p l) = stripEnds p l := by
  unfold stripEnds
  set a := l.dropWhile p with ha
  set b := a.reverse.dropWhile p with hb
  have hbhead : ∀ c t, b = c :: t → p c = false := fun c t h =>
    dropWhile_head_false (hb.symm.trans h)
  have hstep1 : b.reverse.dropWhile p = b.reverse := by
    refine dropWhile_of_head_false ?_
    intro c t h
    -- the head of `b.reverse` is the last element of `b`, which is the last
    -- element of `a.reverse` (a nonempty suffix), i.e. the head of `a`
    have hbne : b ≠ [] := by
      intro hnil
      rw [hnil] at h
      simp at h
    obtain ⟨u, hu⟩ := (List.dropWhile_suffix p : a.reverse.dropWhile p <:+ a.reverse)
    have hlast : b.getLast? = a.reverse.getLast? := by
      rw [← hu, ← hb, List.getLast?_append_of_ne_nil u hbne]
    have hhead : a.reverse.getLast? = a.head? := List.getLast?_reverse a
    have hch : b.reverse.head? = some c := by rw [h]; rfl
    rw [List.head?_reverse] at hch
    have hac : a.head? = some c := by rw [← hhead, ← hlast, hch]
    cases haa : a with
    | nil => rw [haa] at hac; simp at hac
    | cons x t2 =>
      rw [haa] at hac
      have hx : x = c := by simpa using hac
      exact hx ▸ dropWhile_head_false (ha.symm.trans haa)
  rw [hstep1, List.reverse_reverse]
  have hstep2 : b.dropWhile p = b := dropWhile_of_head_false hbhead
  rw [hstep2]

lemma map_eq_self_of_all {α : Type} {f : α → α} {l : List α}
    (h : ∀ c ∈ l, f c = c) : l.map f = l := by
  induction l with
  | nil => rfl
  | cons c t ih =>
    rw [List.map_cons, h c (List.mem_cons_self c t), ih (fun d hd => h d (List.mem_cons_of_mem c hd))]

lemma canonList_chain' (cs : List Char) : (canonList cs).Chain' RU := by
  unfold canonList
  exact chain'_stripEnds (chain'_collapseUnd _)

/-- Applying `canonList` to one of its outputs returns it unchanged: every
pipeline stage fixes a canonical key. -/
lemma canonList_canonList (cs : List Char) : canonList (canonList cs) = canonList cs := by
  have hkeep := @canonList_keep cs
  conv_lhs => rw [canonList]
  rw [stripEnds_eq_self_of_all (fun c hc => keep_not_ws (hkeep c hc))]
  rw [map_eq_self_of_all (fun c hc => keep_lower (hkeep c hc))]
  rw [map_eq_self_of_all (fun c hc => keep_deaccent (hkeep c hc))]
  rw [List.filter_eq_self.mpr (fun c hc => by
    rw [keep_not_combining (hkeep c hc)]; rfl)]
  rw [map_eq_self_of_all (fun c hc => keep_subst (hkeep c hc))]
  rw [collapseUnd_eq_self (canonList_chain' cs)]
  conv_rhs => rw [canonList]
  exact stripEnds_idem _ _

/-- C9: `canonicalize` is idempotent: canonicalizing a canonical key yields
itself, for every input string. -/
theorem canonicalize_idem (x : String) :
    canonicalize (canonicalize x) = canonicalize x := by
  unfold canonicalize
  rw [canonList_canonList]

/-! Section: Mapping Resolver (C7) -/

/-- C7: `resolve_destination` follows the lookup order of the spec: the
mapping's value for the exact raw header if present; otherwise the mapping's
value for the canonicalized header if present; otherwise the canonicalized
header itself. -/
theorem resolve_destination_lookup_order (raw : String) (m : List (String × String)) :
    (∀ v, m.lookup raw = some v → resolve_destination raw m = v) ∧
    (m.lookup raw = Option.none → ∀ v, m.lookup (canonicalize raw) = some v →
      resolve_destination raw m = v) ∧
    (m.lookup raw = Option.none → m.lookup (canonicalize raw) = Option.none →
      resolve_destination raw m = canonicalize raw) := by
  unfold resolve_destination
  refine ⟨fun v hv => by rw [hv], fun h1 v hv => by rw [h1, hv], fun h1 h2 => by rw [h1, h2]⟩

/-- Witness for C7: the three lookup stages at concrete inputs. -/
theorem resolve_destination_lookup_order_witness :
    resolve_destination "Fecha Publicación" [("Fecha Publicación", "fecha")] = "fecha" ∧
    resolve_destination "FECHA" [("fecha", "dest2")] = "dest2" ∧
    resolve_destination "Fecha Publicación" [] = "fecha_publicacion" :=
  ⟨(resolve_destination_lookup_order "Fecha Publicación" _).1 "fecha" (by rfl),
   (resolve_destination_lookup_order "FECHA" _).2.1 (by rfl) "dest2" (by rfl),
   (resolve_destination_lookup_order "Fecha Publicación" []).2.2 (by rfl) (by rfl)⟩

/-! Section: Link preservation (C4) -/

/-- C4: during unification a cell carrying a hyperlink target `T` distinct
from its string display value `D` contributes the link pair with display `D`
and target `T` (the `=HYPERLINK("T", "D")` formula); a string cell with no
hyperlink whose value starts with `http://` or `https://` contributes the
self link pair; every other cell without a hyperlink contributes its value
unchanged. -/
theorem cellOutValue_link_preservation (c : Cell) :
    (∀ T D, c.hyperlink = some T → c.value = PyVal.str D → T ≠ D →
      cellOutValue c = PyVal.str (hyperFormula T D)) ∧
    (∀ s, c.hyperlink = Option.none → c.value = PyVal.str s → isHttpUrl s = true →
      cellOutValue c = PyVal.str (hyperFormula s s)) ∧
    (c.hyperlink = Option.none → (∀ s, c.value = PyVal.str s → isHttpUrl s = false) →
      cellOutValue c = c.value) := by
  obtain ⟨v, hl⟩ := c
  refine ⟨?_, ?_, ?_⟩
  · rintro T D rfl rfl _
    rfl
  · rintro s rfl rfl hs
    simp [cellOutValue, hs]
  · rintro rfl h
    cases v with
    | str s => simp [cellOutValue, h s rfl]
    | int n => rfl
    | none => rfl

/-- Witness for C4: the three branches at concrete cells. -/
theorem cellOutValue_link_preservation_witness :
    cellOutValue ⟨PyVal.str "Nota", some "https://x/1"⟩ =
      PyVal.str (hyperFormula "https://x/1" "Nota") ∧
    cellOutValue ⟨PyVal.str "https://y/2", Option.none⟩ =
      PyVal.str (hyperFormula "https://y/2" "https://y/2") ∧
    cellOutValue ⟨PyVal.str "plain", Option.none⟩ = PyVal.str "plain" := by
  refine ⟨(cellOutValue_link_preservation _).1 "https://x/1" "Nota" rfl rfl (by decide),
    (cellOutValue_link_preservation _).2.1 "https://y/2" rfl rfl (by decide),
    (cellOutValue_link_preservation _).2.2 rfl ?_⟩
  intro s hs
  injection hs with h
  subst h
  decide

/-! Section: Text Extractor failure on documents with no matching record (C10) -/

/-- C10: on a parseable document in which no news record's URL matches the
code pattern, `build_text_df` raises (`drop_duplicates("codigo")` on the
empty, column-less DataFrame) instead of returning an empty mapping. -/
theorem build_text_df_error_on_no_match (doc : List Noticia)
    (h : ∀ n ∈ doc, searchCode n.url.data = Option.none) :
    build_text_df doc = Except.error () := by
  have hnil : doc.filterMap
      (fun n => (searchCode n.url.data).map (fun code => (code, pyStrip n.fullText))) = [] :=
    List.filterMap_eq_nil_iff.mpr (fun n hn => by rw [h n hn]; rfl)
  simp only [build_text_df, hnil, if_pos]

/-- Witness for C10: a one-record document whose URL has no code. -/
theorem build_text_df_error_on_no_match_witness :
    (∀ n ∈ [(⟨"https://medio.example/nota/77", "Texto"⟩ : Noticia)],
      searchCode n.url.data = Option.none) ∧
    build_text_df [⟨"https://medio.example/nota/77", "Texto"⟩] = Except.error () :=
  ⟨by decide, build_text_df_error_on_no_match _ (by decide)⟩

/-! Section: Blank headers during unification (C2) -/

/-- C2: the claim says a blank header cell is assigned the placeholder
`col_<n>` before resolution during unification.  The code's configuration
view (`workbook_columns`) does name the blank header `col_1` — so a user maps
`col_1` to a destination — but `unify_workbook` replaces the blank header by
the empty string (`orig or ""`) instead, so the mapping entry for `col_1` is
ignored: the column resolves to `""` and its value is dropped rather than
landing under `dest`. -/
theorem blank_header_not_resolved_as_placeholder :
    workbook_columns wbBlankHeader = [["col_1"]] ∧
    unify_workbook wbBlankHeader [("col_1", "dest")] = ([""], [[PyVal.str ""]]) :=
  ⟨rfl, rfl⟩

/-! Section: Row pass: characterization of `fillRow` -/

lemma getD_set_eq {l : List PyVal} {i : Nat} (h : i < l.length) (a dv : PyVal) :
    (l.set i a).getD i dv = a := by
  rw [List.getD_eq_getElem?_getD, List.getElem?_set_self h]
  rfl

lemma getD_set_ne {l : List PyVal} {i j : Nat} (h : i ≠ j) (a dv : PyVal) :
    (l.set i a).getD j dv = l.getD j dv := by
  rw [List.getD_eq_getElem?_getD, List.getElem?_set_ne h, ← List.getD_eq_getElem?_getD]

lemma fillRowAux_length (hf i2d : List String) :
    ∀ (row : List Cell) (idx : Nat) (acc : List PyVal),
      (fillRowAux hf i2d idx row acc).length = acc.length
  | [], _, _ => rfl
  | c :: rest, idx, acc => by
    simp only [fillRowAux]
    rw [fillRowAux_length hf i2d rest (idx + 1)]
    split
    · rfl
    · exact List.length_set ..

lemma fillRowAux_getD (hf i2d : List String) (j : Nat) (dv : PyVal) :
    ∀ (row : List Cell) (idx : Nat) (acc : List PyVal), j < acc.length →
      (fillRowAux hf i2d idx row acc).getD j dv =
        curValAux hf i2d j idx row (acc.getD j dv)
  | [], _, _, _ => rfl
  | c :: rest, idx, acc, hj => by
    simp only [fillRowAux, curValAux]
    have hlen : j < (if i2d.getD idx "" = "" then acc
        else acc.set (hf.indexOf (i2d.getD idx "")) (cellOutValue c)).length := by
      split
      · exact hj
      · rw [List.length_set]; exact hj
    rw [fillRowAux_getD hf i2d j dv rest (idx + 1) _ hlen]
    congr 1
    by_cases hd : i2d.getD idx "" = ""
    · rw [if_pos hd, if_neg (fun hcon => hcon.1 hd)]
    · rw [if_neg hd]
      by_cases hp : hf.indexOf (i2d.getD idx "") = j
      · rw [if_pos ⟨hd, hp⟩]
        subst hp
        exact getD_set_eq hj _ dv
      · rw [if_neg (fun hcon => hp hcon.2), getD_set_ne hp _ dv]

lemma curValAux_no_contrib (hf i2d : List String) (j : Nat) :
    ∀ (row : List Cell) (idx : Nat) (v : PyVal),
      (∀ m, m < row.length →
        i2d.getD (idx + m) "" = "" ∨ hf.indexOf (i2d.getD (idx + m) "") ≠ j) →
      curValAux hf i2d j idx row v = v
  | [], _, _, _ => rfl
  | c :: rest, idx, v, h => by
    simp only [curValAux]
    have h0 := h 0 (Nat.succ_pos _)
    rw [Nat.add_zero] at h0
    rw [if_neg (by tauto)]
    refine curValAux_no_contrib hf i2d j rest (idx + 1) v (fun m hm => ?_)
    have hms := h (m + 1) (Nat.succ_lt_succ hm)
    have e : idx + (m + 1) = (idx + 1) + m := by omega
    rw [e] at hms
    exact hms

lemma curValAux_last (hf i2d : List String) (j : Nat) :
    ∀ (row : List Cell) (idx : Nat) (v : PyVal) (k : Nat),
      k < row.length →
      i2d.getD (idx + k) "" ≠ "" →
      hf.indexOf (i2d.getD (idx + k) "") = j →
      (∀ m, k < m → m < row.length →
        i2d.getD (idx + m) "" = "" ∨ hf.indexOf (i2d.getD (idx + m) "") ≠ j) →
      curValAux hf i2d j idx row v = cellOutValue (row.getD k dfltCell)
  | [], _, _, k, hk, _, _, _ => absurd hk (Nat.not_lt_zero k)
  | c :: rest, idx, v, 0, _, hne, hj, hafter => by
    simp only [curValAux]
    rw [Nat.add_zero] at hne hj
    rw [if_pos ⟨hne, hj⟩]
    have := curValAux_no_contrib hf i2d j rest (idx + 1) (cellOutValue c) (fun m hm => by
      have hms := hafter (m + 1) (Nat.succ_pos m) (Nat.succ_lt_succ hm)
      have e : idx + (m + 1) = (idx + 1) + m := by omega
      rw [e] at hms
      exact hms)
    rw [this]
    rfl
  | c :: rest, idx, v, k + 1, hk, hne, hj, hafter => by
    simp only [curValAux]
    have e : idx + (k + 1) = (idx + 1) + k := by omega
    rw [e] at hne hj
    have := curValAux_last hf i2d j rest (idx + 1)
      (if i2d.getD idx "" ≠ "" ∧ hf.indexOf (i2d.getD idx "") = j then cellOutValue c else v)
      k (Nat.lt_of_succ_lt_succ hk) hne hj (fun m hm hmr => by
        have hms := hafter (m + 1) (Nat.succ_lt_succ hm) (Nat.succ_lt_succ hmr)
        have e2 : idx + (m + 1) = (idx + 1) + m := by omega
        rw [e2] at hms
        exact hms)
    rw [this]
    rfl

lemma fillRow_length (hf i2d : List String) (row : List Cell) :
    (fillRow hf i2d row).length = hf.length := by
  unfold fillRow
  rw [fillRowAux_length]
  exact List.length_replicate ..

lemma fillRow_getD (hf i2d : List String) (row : List Cell) (j : Nat)
    (hj : j < hf.length) (dv : PyVal) :
    (fillRow hf i2d row).getD j dv = curValAux hf i2d j 0 row (PyVal.str "") := by
  unfold fillRow
  rw [fillRowAux_getD hf i2d j dv row 0 _ (by rw [List.length_replicate]; exact hj)]
  congr 1
  rw [List.getD_eq_getElem?_getD, List.getElem?_replicate, if_pos hj]
  rfl

/-! Section: Header pass: membership and uniqueness of the destination order -/

lemma mem_foldl_insDest :
    ∀ (l : List String) (acc : List String) (x : String),
      x ∈ l.foldl insDest acc ↔ x ∈ acc ∨ x ∈ l
  | [], acc, x => by simp
  | d :: t, acc, x => by
    simp only [List.foldl_cons]
    rw [mem_foldl_insDest t _ x]
    unfold insDest
    by_cases h : d ∈ acc
    · rw [if_pos h]
      constructor
      · rintro (hx | hx)
        · exact Or.inl hx
        · exact Or.inr (List.mem_cons_of_mem d hx)
      · rintro (hx | hx)
        · exact Or.inl hx
        · rcases List.mem_cons.mp hx with rfl | hx
          · exact Or.inl h
          · exact Or.inr hx
    · rw [if_neg h]
      simp only [List.mem_append, List.mem_singleton, List.mem_cons]
      tauto

lemma nodup_foldl_insDest :
    ∀ (l : List String) (acc : List String), acc.Nodup → (l.foldl insDest acc).Nodup
  | [], _, h => h
  | d :: t, acc, h => by
    simp only [List.foldl_cons]
    refine nodup_foldl_insDest t _ ?_
    unfold insDest
    by_cases hd : d ∈ acc
    · rw [if_pos hd]; exact h
    · rw [if_neg hd]
      simp [List.nodup_append, h, hd]

lemma mem_headersFinal_aux (mapping : List (String × String)) :
    ∀ (ss : List Sheet) (acc : List String) (x : String),
      x ∈ ss.foldl (fun acc ws => (sheetDests mapping ws).foldl insDest acc) acc ↔
        x ∈ acc ∨ ∃ ws ∈ ss, x ∈ sheetDests mapping ws
  | [], acc, x => by simp
  | ws :: t, acc, x => by
    simp only [List.foldl_cons]
    rw [mem_headersFinal_aux mapping t _ x, mem_foldl_insDest]
    simp only [List.mem_cons]
    constructor
    · rintro ((hx | hx) | ⟨w, hw, hx⟩)
      · exact Or.inl hx
      · exact Or.inr ⟨ws, Or.inl rfl, hx⟩
      · exact Or.inr ⟨w, Or.inr hw, hx⟩
    · rintro (hx | ⟨w, rfl | hw, hx⟩)
      · exact Or.inl (Or.inl hx)
      · exact Or.inl (Or.inr hx)
      · exact Or.inr ⟨w, hw, hx⟩

lemma mem_headersFinal {mapping : List (String × String)} {wb : List Sheet} {x : String} :
    x ∈ headersFinal mapping wb ↔ ∃ ws ∈ wb, x ∈ sheetDests mapping ws := by
  unfold headersFinal
  rw [mem_headersFinal_aux]
  simp

lemma nodup_headersFinal_aux (mapping : List (String × String)) :
    ∀ (ss : List Sheet) (acc : List String), acc.Nodup →
      (ss.foldl (fun acc ws => (sheetDests mapping ws).foldl insDest acc) acc).Nodup
  | [], _, h => h
  | ws :: t, acc, h => by
    simp only [List.foldl_cons]
    exact nodup_headersFinal_aux mapping t _ (nodup_foldl_insDest _ _ h)

lemma nodup_headersFinal (mapping : List (String × String)) (wb : List Sheet) :
    (headersFinal mapping wb).Nodup :=
  nodup_headersFinal_aux mapping wb [] List.nodup_nil

lemma getD_mem {l : List String} {m : Nat} (h : l.getD m "" ≠ "") : l.getD m "" ∈ l := by
  by_cases hm : m < l.length
  · rw [List.getD_eq_getElem?_getD, List.getElem?_eq_getElem hm]
    simp only [Option.getD_some]
    exact List.getElem_mem hm
  · rw [List.getD_eq_getElem?_getD, List.getElem?_eq_none (Nat.le_of_not_lt hm)] at h
    simp at h

lemma mem_unify_rows {wb : List Sheet} {mapping : List (String × String)}
    {r : List PyVal} :
    r ∈ (unify_workbook wb mapping).2 ↔
      ∃ ws ∈ wb, ∃ row ∈ ws.rows,
        r = fillRow (headersFinal mapping wb) (sheetDests mapping ws) row := by
  simp only [unify_workbook, List.mem_flatten, List.mem_map]
  constructor
  · rintro ⟨l, ⟨ws, hws, rfl⟩, hr⟩
    obtain ⟨row, hrow, rfl⟩ := List.mem_map.mp hr
    exact ⟨ws, hws, row, hrow, rfl⟩
  · rintro ⟨ws, hws, row, hrow, rfl⟩
    exact ⟨_, ⟨ws, hws, rfl⟩, List.mem_map_of_mem _ hrow⟩

/-! Section: Row-width invariant (C5) -/

/-- C5: every row produced by `unify_workbook` has exactly
`len(Destination Column Order)` cells; each produced row is the row-pass
image of a source row of some sheet; and an output position to which no cell
of the source row contributes holds the empty string. -/
theorem unify_row_width_invariant (wb : List Sheet) (mapping : List (String × String)) :
    (∀ r ∈ (unify_workbook wb mapping).2, r.length = (unify_workbook wb mapping).1.length) ∧
    (∀ r ∈ (unify_workbook wb mapping).2, ∃ ws ∈ wb, ∃ row ∈ ws.rows,
      r = fillRow (headersFinal mapping wb) (sheetDests mapping ws) row) ∧
    (∀ ws ∈ wb, ∀ row ∈ ws.rows, ∀ j, j < (headersFinal mapping wb).length →
      (∀ m, m < row.length →
        (sheetDests mapping ws).getD m "" = "" ∨
          (headersFinal mapping wb).indexOf ((sheetDests mapping ws).getD m "") ≠ j) →
      (fillRow (headersFinal mapping wb) (sheetDests mapping ws) row).getD j PyVal.none
        = PyVal.str "") := by
  refine ⟨?_, fun r hr => mem_unify_rows.mp hr, ?_⟩
  · intro r hr
    obtain ⟨ws, _, row, _, rfl⟩ := mem_unify_rows.mp hr
    rw [fillRow_length]
    rfl
  · intro ws _ row _ j hj h
    rw [fillRow_getD _ _ _ j hj]
    exact curValAux_no_contrib _ _ _ row 0 _ (fun m hm => by
      rw [Nat.zero_add]
      exact h m hm)

/-- Witness for C5: on the concrete workbook `wbStars` with the empty
mapping, the produced row has the width of the destination order, and the
uncontributed position holds the empty string. -/
theorem unify_row_width_invariant_witness :
    [PyVal.str ""].length = (unify_workbook wbStars []).1.length ∧
    (fillRow (headersFinal [] wbStars) (sheetDests [] sheetStars)
        [⟨PyVal.str "v", Option.none⟩]).getD 0 PyVal.none = PyVal.str "" :=
  ⟨(unify_row_width_invariant wbStars []).1 [PyVal.str ""] (by decide),
   (unify_row_width_invariant wbStars []).2.2 sheetStars (by decide)
     [⟨PyVal.str "v", Option.none⟩] (by decide) 0 (by decide) (by decide)⟩

/-! Section: Last-write-wins on duplicate destinations (C6) -/

/-- C6: when two source columns `i < k` of the same sheet resolve to the same
non-empty destination and no other column of the row resolves to it, the
output cell under that destination holds the value contributed by the later
column `k`.  (`fillRow` is total, so no error is raised.) -/
theorem unify_last_write_wins
    (wb : List Sheet) (mapping : List (String × String)) (ws : Sheet) (hws : ws ∈ wb)
    (row : List Cell) (i k : Nat) (dest : String)
    (hik : i < k) (hk : k < row.length)
    (_hid : (sheetDests mapping ws).getD i "" = dest)
    (hkd : (sheetDests mapping ws).getD k "" = dest)
    (hne : dest ≠ "")
    (honly : ∀ m, m < row.length → m ≠ i → m ≠ k →
      (sheetDests mapping ws).getD m "" ≠ dest) :
    (fillRow (headersFinal mapping wb) (sheetDests mapping ws) row).getD
        ((headersFinal mapping wb).indexOf dest) PyVal.none
      = cellOutValue (row.getD k dfltCell) := by
  have hmem : dest ∈ sheetDests mapping ws := hkd ▸ getD_mem (hkd ▸ hne)
  have hhf : dest ∈ headersFinal mapping wb := mem_headersFinal.mpr ⟨ws, hws, hmem⟩
  have hjlt : (headersFinal mapping wb).indexOf dest < (headersFinal mapping wb).length :=
    List.indexOf_lt_length.mpr hhf
  rw [fillRow_getD _ _ _ _ hjlt]
  refine curValAux_last _ _ _ row 0 _ k hk ?_ ?_ ?_
  · rw [Nat.zero_add, hkd]
    exact hne
  · rw [Nat.zero_add, hkd]
  · intro m hm hmr
    rw [Nat.zero_add]
    by_cases hd : (sheetDests mapping ws).getD m "" = ""
    · exact Or.inl hd
    · refine Or.inr (fun hidx => ?_)
      have hmmem : (sheetDests mapping ws).getD m "" ∈ headersFinal mapping wb :=
        mem_headersFinal.mpr ⟨ws, hws, getD_mem hd⟩
      have := (List.indexOf_inj hmmem hhf).mp hidx
      exact honly m hmr (by omega) (by omega) this

/-- Witness for C6: on `sheetDup` the output cell under `"a"` holds the
later column's value `"2"`. -/
theorem unify_last_write_wins_witness :
    (fillRow (headersFinal [] [sheetDup]) (sheetDests [] sheetDup)
        [⟨PyVal.str "1", Option.none⟩, ⟨PyVal.str "2", Option.none⟩]).getD
        ((headersFinal [] [sheetDup]).indexOf "a") PyVal.none
      = cellOutValue ⟨PyVal.str "2", Option.none⟩ := by
  have h := unify_last_write_wins [sheetDup] [] sheetDup (by decide)
    [⟨PyVal.str "1", Option.none⟩, ⟨PyVal.str "2", Option.none⟩] 0 1 "a"
    (by decide) (by decide) (by decide) (by decide) (by decide) (by decide)
  exact h

/-! Section: Headers resolving to the empty string (C1) -/

/-- Counterexample to C1 as stated: the header `"***"` canonicalizes to the
empty string and has no mapping entry, yet `unify_workbook` DOES append a
destination column (the empty-named column `""`) to the Destination Column
Order — `if dest not in headers_final: headers_final.append(dest)` runs for
`dest = ""` too.  Its value is indeed dropped: the produced row holds `""`. -/
theorem unmapped_header_still_contributes_column :
    (unify_workbook wbStars []).1 = [""] ∧
    (unify_workbook wbStars []).1 ≠ [] ∧
    (unify_workbook wbStars []).2 = [[PyVal.str ""]] := by
  refine ⟨rfl, ?_, rfl⟩
  decide

/-- C1 amended: a header whose resolution yields the empty string
contributes the empty-named destination column `""` to the Destination
Column Order (appended once, shared by all such headers), and the source
values are dropped: in every produced row the cell under that column is the
empty string. -/
theorem empty_resolution_drops_values
    (wb : List Sheet) (mapping : List (String × String))
    (h : ∃ ws ∈ wb, "" ∈ sheetDests mapping ws) :
    "" ∈ headersFinal mapping wb ∧
    ∀ ws ∈ wb, ∀ row ∈ ws.rows,
      (fillRow (headersFinal mapping wb) (sheetDests mapping ws) row).getD
          ((headersFinal mapping wb).indexOf "") PyVal.none = PyVal.str "" := by
  have hhf : "" ∈ headersFinal mapping wb := by
    obtain ⟨ws, hws, hmem⟩ := h
    exact mem_headersFinal.mpr ⟨ws, hws, hmem⟩
  have hjlt : (headersFinal mapping wb).indexOf "" < (headersFinal mapping wb).length :=
    List.indexOf_lt_length.mpr hhf
  refine ⟨hhf, fun ws hws row _ => ?_⟩
  rw [fillRow_getD _ _ _ _ hjlt]
  refine curValAux_no_contrib _ _ _ row 0 _ (fun m hm => ?_)
  rw [Nat.zero_add]
  by_cases hd : (sheetDests mapping ws).getD m "" = ""
  · exact Or.inl hd
  · refine Or.inr (fun hidx => ?_)
    have hmmem : (sheetDests mapping ws).getD m "" ∈ headersFinal mapping wb :=
      mem_headersFinal.mpr ⟨ws, hws, getD_mem hd⟩
    exact hd ((List.indexOf_inj hmmem hhf).mp hidx)

/-- Witness for the amended C1, at the concrete workbook `wbStars`. -/
theorem empty_resolution_drops_values_witness :
    "" ∈ headersFinal [] wbStars ∧
    (fillRow (headersFinal [] wbStars) (sheetDests [] sheetStars)
        [⟨PyVal.str "v", Option.none⟩]).getD
        ((headersFinal [] wbStars).indexOf "") PyVal.none = PyVal.str "" := by
  have h := empty_resolution_drops_values wbStars [] ⟨sheetStars, by decide, by decide⟩
  exact ⟨h.1, h.2 sheetStars (by decide) [⟨PyVal.str "v", Option.none⟩] (by decide)⟩

/-! Section: Multi-file unification (C8) -/

lemma getD_append_at {l : List PyVal} (v dv : PyVal) (j : Nat) (hj : j = l.length) :
    (l ++ [v]).getD j dv = v := by
  subst hj
  rw [List.getD_eq_getElem?_getD, List.getElem?_append_right (Nat.le_refl _), Nat.sub_self]
  rfl

lemma getD_eq_getElem_of_lt {l : List PyVal} {j : Nat} (h : j < l.length) (dv : PyVal) :
    l.getD j dv = l[j] := by
  rw [List.getD_eq_getElem?_getD, List.getElem?_eq_getElem h]
  rfl

/-- Realigning a row to its own (duplicate-free) column list is the
identity. -/
lemma row_realign_id {cols : List String} {r : List PyVal}
    (hnd : cols.Nodup) (hlen : r.length = cols.length) :
    cols.map (fun c => if cols.contains c then rowGet cols r c else PyVal.none) = r := by
  apply List.ext_getElem (by simp [hlen])
  intro i h1 h2
  rw [List.getElem_map]
  have h1c : i < cols.length := by simpa using h1
  have hc : cols[i] ∈ cols := List.getElem_mem h1c
  rw [if_pos ((List.elem_iff).mpr hc)]
  unfold rowGet
  have hjlt : cols.indexOf cols[i] < cols.length := List.indexOf_lt_length.mpr hc
  have hj : cols.indexOf cols[i] = i := by
    have := List.getElem_indexOf hjlt
    exact (hnd.getElem_inj_iff).mp this
  rw [hj, getD_eq_getElem_of_lt (by omega)]

/-- Concatenation of two frames sharing one duplicate-free column list stacks
their rows. -/
lemma concatTables_pair_same_cols {C : List String} {r1 r2 : List (List PyVal)}
    (hnd : C.Nodup)
    (hr1 : ∀ r ∈ r1, r.length = C.length)
    (hr2 : ∀ r ∈ r2, r.length = C.length) :
    concatTables [⟨C, r1⟩, ⟨C, r2⟩] = ⟨C, r1 ++ r2⟩ := by
  have hfilt : C.filter (fun c => !(C.contains c)) = [] := by
    rw [List.filter_eq_nil_iff]
    intro a ha
    simp [ha]
  have hfilt0 : C.filter (fun c => !(List.contains ([] : List String) c)) = C := by
    rw [List.filter_eq_self]
    intro a _
    rfl
  simp only [concatTables, List.foldl_cons, List.foldl_nil, List.nil_append, hfilt0,
    hfilt, List.append_nil, List.map_cons, List.map_nil, List.flatten_cons,
    List.flatten_nil]
  rw [map_eq_self_of_all (fun r hr => row_realign_id hnd (hr1 r hr)),
    map_eq_self_of_all (fun r hr => row_realign_id hnd (hr2 r hr))]

/-- C8: unifying two single-sheet workbooks with identical headers and 3 and
5 data rows in multi-file mode yields an 8-row table whose columns are the
common Destination Column Order plus one `archivo_origen` column, holding in
each row the filename stem of the workbook that contributed the row.
(The hypothesis `hno` rules out a source header that itself resolves to
`archivo_origen`, in which case the scalar assignment would overwrite that
column instead of appending a new one.) -/
theorem unify_files_multi_file_scenario
    (mapping : List (String × String)) (n1 n2 : String) (hdr : List (Option String))
    (rows1 rows2 : List (List Cell))
    (h3 : rows1.length = 3) (h5 : rows2.length = 5)
    (hno : "archivo_origen" ∉ headersFinal mapping [⟨hdr, rows1⟩]) :
    (unify_files [(n1, [⟨hdr, rows1⟩]), (n2, [⟨hdr, rows2⟩])] mapping).rows.length = 8 ∧
    (unify_files [(n1, [⟨hdr, rows1⟩]), (n2, [⟨hdr, rows2⟩])] mapping).cols
      = headersFinal mapping [⟨hdr, rows1⟩] ++ ["archivo_origen"] ∧
    (∀ r ∈ (unify_files [(n1, [⟨hdr, rows1⟩]), (n2, [⟨hdr, rows2⟩])] mapping).rows.take 3,
      rowGet (unify_files [(n1, [⟨hdr, rows1⟩]), (n2, [⟨hdr, rows2⟩])] mapping).cols r
        "archivo_origen" = PyVal.str (pathStem n1)) ∧
    (∀ r ∈ (unify_files [(n1, [⟨hdr, rows1⟩]), (n2, [⟨hdr, rows2⟩])] mapping).rows.drop 3,
      rowGet (unify_files [(n1, [⟨hdr, rows1⟩]), (n2, [⟨hdr, rows2⟩])] mapping).cols r
        "archivo_origen" = PyVal.str (pathStem n2)) := by
  set hf := headersFinal mapping [⟨hdr, rows1⟩] with hhf
  have hf2 : headersFinal mapping [⟨hdr, rows2⟩] = hf := rfl
  set i2d := sheetDests mapping ⟨hdr, rows1⟩ with hi2d
  have hi2d2 : sheetDests mapping ⟨hdr, rows2⟩ = i2d := rfl
  -- the two per-workbook frames after the `archivo_origen` assignment
  have hu1 : (unify_workbook [⟨hdr, rows1⟩] mapping).2 = rows1.map (fillRow hf i2d) := by
    simp [unify_workbook]
  have hu2 : (unify_workbook [⟨hdr, rows2⟩] mapping).2 = rows2.map (fillRow hf i2d) := by
    simp only [unify_workbook, List.map_cons, List.map_nil, List.flatten_cons,
      List.flatten_nil, List.append_nil]
    rw [hf2, hi2d2]
  have hassign : ∀ (rs : List (List Cell)) (v : PyVal),
      assignCol ⟨hf, rs.map (fillRow hf i2d)⟩ "archivo_origen" v
        = ⟨hf ++ ["archivo_origen"], (rs.map (fillRow hf i2d)).map (fun r => r ++ [v])⟩ := by
    intro rs v
    unfold assignCol
    rw [if_neg hno]
  have hfnodup : hf.Nodup := hhf ▸ nodup_headersFinal mapping [⟨hdr, rows1⟩]
  have hC : (hf ++ ["archivo_origen"]).Nodup := by
    simp [List.nodup_append, hfnodup, hno]
  have hlen1 : ∀ r ∈ (rows1.map (fillRow hf i2d)).map (fun r => r ++ [PyVal.str (pathStem n1)]),
      r.length = (hf ++ ["archivo_origen"]).length := by
    rintro r hr
    obtain ⟨fr, hfr, rfl⟩ := List.mem_map.mp hr
    obtain ⟨row, _, rfl⟩ := List.mem_map.mp hfr
    simp [fillRow_length]
  have hlen2 : ∀ r ∈ (rows2.map (fillRow hf i2d)).map (fun r => r ++ [PyVal.str (pathStem n2)]),
      r.length = (hf ++ ["archivo_origen"]).length := by
    rintro r hr
    obtain ⟨fr, hfr, rfl⟩ := List.mem_map.mp hr
    obtain ⟨row, _, rfl⟩ := List.mem_map.mp hfr
    simp [fillRow_length]
  have hmain : unify_files [(n1, [⟨hdr, rows1⟩]), (n2, [⟨hdr, rows2⟩])] mapping
      = ⟨hf ++ ["archivo_origen"],
         (rows1.map (fillRow hf i2d)).map (fun r => r ++ [PyVal.str (pathStem n1)])
           ++ (rows2.map (fillRow hf i2d)).map (fun r => r ++ [PyVal.str (pathStem n2)])⟩ := by
    show concatTables _ = _
    rw [List.map_cons, List.map_cons, List.map_nil]
    have e1 : assignCol
        ⟨(unify_workbook [⟨hdr, rows1⟩] mapping).1, (unify_workbook [⟨hdr, rows1⟩] mapping).2⟩
        "archivo_origen" (PyVal.str (pathStem n1))
        = ⟨hf ++ ["archivo_origen"],
           (rows1.map (fillRow hf i2d)).map (fun r => r ++ [PyVal.str (pathStem n1)])⟩ := by
      rw [hu1]
      exact hassign rows1 _
    have e2 : assignCol
        ⟨(unify_workbook [⟨hdr, rows2⟩] mapping).1, (unify_workbook [⟨hdr, rows2⟩] mapping).2⟩
        "archivo_origen" (PyVal.str (pathStem n2))
        = ⟨hf ++ ["archivo_origen"],
           (rows2.map (fillRow hf i2d)).map (fun r => r ++ [PyVal.str (pathStem n2)])⟩ := by
      rw [hu2]
      exact hassign rows2 _
    rw [e1, e2]
    exact concatTables_pair_same_cols hC hlen1 hlen2
  have hao : ∀ (fr : List PyVal) (v : PyVal), fr.length = hf.length →
      rowGet (hf ++ ["archivo_origen"]) (fr ++ [v]) "archivo_origen" = v := by
    intro fr v hl
    unfold rowGet
    rw [List.indexOf_append_of_not_mem (hhf ▸ hno)]
    have : List.indexOf "archivo_origen" ["archivo_origen"] = 0 := rfl
    rw [this, Nat.add_zero]
    exact getD_append_at v PyVal.none hf.length hl.symm
  have hlen1' : ((rows1.map (fillRow hf i2d)).map
      (fun r => r ++ [PyVal.str (pathStem n1)])).length = 3 := by simp [h3]
  refine ⟨?_, ?_, ?_, ?_⟩
  · rw [hmain]
    simp [h3, h5]
  · rw [hmain]
  · intro r hr
    rw [hmain] at hr
    simp only at hr
    rw [← hlen1', List.take_left] at hr
    obtain ⟨fr, hfr, rfl⟩ := List.mem_map.mp hr
    obtain ⟨row, _, rfl⟩ := List.mem_map.mp hfr
    rw [hmain]
    exact hao _ _ (fillRow_length hf i2d row)
  · intro r hr
    rw [hmain] at hr
    simp only at hr
    rw [← hlen1', List.drop_left] at hr
    obtain ⟨fr, hfr, rfl⟩ := List.mem_map.mp hr
    obtain ⟨row, _, rfl⟩ := List.mem_map.mp hfr
    rw [hmain]
    exact hao _ _ (fillRow_length hf i2d row)

/-- Witness for C8 at concrete workbooks: 8 rows; the first block's rows
carry the stem of `uno.xlsx`, the second block's rows the stem of
`dos.xlsx`. -/
theorem unify_files_multi_file_scenario_witness :
    (unify_files [("uno.xlsx", [⟨hdrW, rows1W⟩]), ("dos.xlsx", [⟨hdrW, rows2W⟩])] []).rows.length
      = 8 ∧
    rowGet (unify_files [("uno.xlsx", [⟨hdrW, rows1W⟩]), ("dos.xlsx", [⟨hdrW, rows2W⟩])] []).cols
      ((unify_files [("uno.xlsx", [⟨hdrW, rows1W⟩]), ("dos.xlsx", [⟨hdrW, rows2W⟩])] []).rows.getD
        0 []) "archivo_origen" = PyVal.str (pathStem "uno.xlsx") ∧
    rowGet (unify_files [("uno.xlsx", [⟨hdrW, rows1W⟩]), ("dos.xlsx", [⟨hdrW, rows2W⟩])] []).cols
      ((unify_files [("uno.xlsx", [⟨hdrW, rows1W⟩]), ("dos.xlsx", [⟨hdrW, rows2W⟩])] []).rows.getD
        3 []) "archivo_origen" = PyVal.str (pathStem "dos.xlsx") :=
  have th := unify_files_multi_file_scenario [] "uno.xlsx" "dos.xlsx" hdrW rows1W rows2W
    (by decide) (by decide) (by decide)
  ⟨th.1, th.2.2.1 _ (by decide), th.2.2.2 _ (by decide)⟩

/-! Section: Text join (C3) -/

/-- Counterexample to C3 as stated: a row whose URL yields no matching code
gets the missing value (pandas `NaN`, from the left merge) in `texto`, not
the empty string. -/
theorem join_unmatched_gets_missing_not_empty :
    add_text_column dfNoMatch (some docJoin)
      = Except.ok ⟨["Url_Noticia", "texto"], [[PyVal.str "nope", PyVal.none]]⟩ ∧
    PyVal.none ≠ PyVal.str "" := by
  refine ⟨rfl, by decide⟩

lemma zip_self_map {α β : Type} (l : List α) (f : α → β) :
    l.zip (l.map f) = l.map (fun a => (a, f a)) := by
  induction l with
  | nil => rfl
  | cons a t ih => simp [ih]

/-- Assigning a fresh column label appends one cell per row. -/
lemma assignColVals_fresh {t : Table} {name : String} (h : name ∉ t.cols)
    (f : List PyVal → PyVal) :
    assignColVals t name (t.rows.map f)
      = ⟨t.cols ++ [name], t.rows.map (fun r => r ++ [f r])⟩ := by
  unfold assignColVals
  rw [if_neg h, zip_self_map, List.map_map]
  rfl

lemma suffixLeft_no_overlap {L R : List String} (h : ∀ x ∈ L, x ∉ R) :
    suffixLeft L R = L :=
  map_eq_self_of_all (fun x hx => if_neg (fun hcon => h x hx (List.elem_iff.mp hcon)))

lemma suffixRight_no_overlap {L R : List String} (h : ∀ x ∈ R, x ∉ L) :
    suffixRight L R = R :=
  map_eq_self_of_all (fun x hx => if_neg (fun hcon => h x hx (List.elem_iff.mp hcon)))

/-- Reading a freshly appended last column of a rectangular row. -/
lemma rowGet_last {L : List String} {r : List PyVal} {name : String} (v : PyVal)
    (hn : name ∉ L) (hr : r.length = L.length) :
    rowGet (L ++ [name]) (r ++ [v]) name = v := by
  unfold rowGet
  rw [List.indexOf_append_of_not_mem hn, List.indexOf_cons_self, Nat.add_zero]
  exact getD_append_at v PyVal.none L.length hr.symm

/-- Dropping the two key columns from a merged rectangular row leaves the
original cells plus the right frame's `texto` cell. -/
lemma drop_keys_row {L : List String} {r : List PyVal} (v a b : PyVal)
    (hncl : "codigo_link" ∉ L) (hnc : "codigo" ∉ L) (hr : r.length = L.length) :
    ((((L ++ ["codigo_link"]) ++ ["codigo", "texto"]).zip ((r ++ [v]) ++ [a, b])).filter
        (fun p => !(["codigo_link", "codigo"].contains p.1))).map Prod.snd
      = r ++ [b] := by
  rw [List.zip_append (by simp [hr]), List.zip_append hr.symm]
  have hz1 : (["codigo_link"] : List String).zip [v] = [("codigo_link", v)] := rfl
  have hz2 : (["codigo", "texto"] : List String).zip [a, b]
      = [("codigo", a), ("texto", b)] := rfl
  rw [hz1, hz2, List.filter_append, List.filter_append]
  have hkeep : (L.zip r).filter (fun p => !(["codigo_link", "codigo"].contains p.1))
      = L.zip r := by
    rw [List.filter_eq_self]
    intro p hp
    have hp1 := (List.of_mem_zip hp).1
    have h1 : p.1 ≠ "codigo_link" := fun he => hncl (he ▸ hp1)
    have h2 : p.1 ≠ "codigo" := fun he => hnc (he ▸ hp1)
    simp [h1, h2]
  have hf1 : ([("codigo_link", v)] : List (String × PyVal)).filter
      (fun p => !(["codigo_link", "codigo"].contains p.1)) = [] := rfl
  have hf2 : ([("codigo", a), ("texto", b)] : List (String × PyVal)).filter
      (fun p => !(["codigo_link", "codigo"].contains p.1)) = [("texto", b)] := rfl
  rw [hkeep, hf1, hf2, List.append_nil, List.map_append, List.map_snd_zip L r (by omega)]
  rfl

/-- C3 amended: for every rectangular table whose first column canonicalizing
to `url_noticia` is `c`, and which has no pre-existing `texto`, `codigo` or
`codigo_link` column (on such tables the pandas merge suffixes the clashing
labels or the final drop raises `KeyError`; both behaviours are carried by
the embedding), joining the scenario document (code `12345`, text `Hello`)
appends a `texto` column: a row whose URL-column value yields code `12345`
gets `Hello`, and a row whose URL yields no matching code gets the missing
value (pandas NaN; serialized as an empty cell), not the empty string. -/
theorem add_text_column_join (df : Table) (c : String)
    (hc : df.cols.find? (fun x => canonicalize x == "url_noticia") = some c)
    (hrect : ∀ r ∈ df.rows, r.length = df.cols.length)
    (hnt : "texto" ∉ df.cols)
    (hnc : "codigo" ∉ df.cols)
    (hncl : "codigo_link" ∉ df.cols) :
    add_text_column df (some docJoin) =
      Except.ok ⟨df.cols ++ ["texto"],
        df.rows.map (fun r =>
          r ++ [if searchCode (pyStr (rowGet df.cols r c)).data = some "12345"
                then PyVal.str "Hello" else PyVal.none])⟩ := by
  have hb : build_text_df docJoin = Except.ok [("12345", "Hello")] := rfl
  simp only [add_text_column, hc, hb]
  rw [assignColVals_fresh hncl]
  have hsl : suffixLeft (df.cols ++ ["codigo_link"]) ["codigo", "texto"]
      = df.cols ++ ["codigo_link"] := by
    refine suffixLeft_no_overlap (fun x hx hmem => ?_)
    have hmem' : x = "codigo" ∨ x = "texto" := by simpa using hmem
    have hx' : x ∈ df.cols ∨ x = "codigo_link" := by simpa using hx
    rcases hx' with h | rfl
    · rcases hmem' with rfl | rfl
      · exact hnc h
      · exact hnt h
    · rcases hmem' with h | h <;> simp at h
  have hsr : suffixRight (df.cols ++ ["codigo_link"]) ["codigo", "texto"]
      = ["codigo", "texto"] := by
    refine suffixRight_no_overlap (fun x hx hmem => ?_)
    have hx' : x = "codigo" ∨ x = "texto" := by simpa using hx
    have hmem' : x ∈ df.cols ∨ x = "codigo_link" := by simpa using hmem
    rcases hmem' with h | rfl
    · rcases hx' with rfl | rfl
      · exact hnc h
      · exact hnt h
    · rcases hx' with h | h <;> simp at h
  simp only [mergeLeftOnRight, textTable, List.map_cons, List.map_nil]
  rw [hsl, hsr]
  have hall : (["codigo_link", "codigo"].all
      (fun n => ((df.cols ++ ["codigo_link"]) ++ ["codigo", "texto"]).contains n)) = true := by
    simp
  unfold dropCols
  rw [if_pos hall]
  refine congrArg Except.ok ?_
  simp only [Table.mk.injEq]
  constructor
  · rw [List.filter_append, List.filter_append]
    have hkeepdf : df.cols.filter
        (fun x => !(["codigo_link", "codigo"].contains x)) = df.cols := by
      rw [List.filter_eq_self]
      intro x hx
      have h1 : x ≠ "codigo_link" := fun he => hncl (he ▸ hx)
      have h2 : x ≠ "codigo" := fun he => hnc (he ▸ hx)
      simp [h1, h2]
    have hcl : (["codigo_link"] : List String).filter
        (fun x => !(["codigo_link", "codigo"].contains x)) = [] := rfl
    have hct : (["codigo", "texto"] : List String).filter
        (fun x => !(["codigo_link", "codigo"].contains x)) = ["texto"] := rfl
    rw [hkeepdf, hcl, hct, List.append_nil]
  · simp only [List.map_map]
    refine List.map_congr_left (fun r hr => ?_)
    have hrlen := hrect r hr
    simp only [Function.comp]
    cases hsc : searchCode (pyStr (rowGet df.cols r c)).data with
    | none =>
      simp only [hsc]
      rw [rowGet_last PyVal.none hncl hrlen]
      have hfind : List.find?
          (fun rr => rowGet ["codigo", "texto"] rr "codigo" == PyVal.none)
          [[PyVal.str "12345", PyVal.str "Hello"]] = Option.none := rfl
      rw [hfind]
      exact drop_keys_row PyVal.none PyVal.none PyVal.none hncl hnc hrlen
    | some k =>
      simp only [hsc]
      rw [rowGet_last (PyVal.str k) hncl hrlen]
      by_cases hk : k = "12345"
      · subst hk
        have hfind : List.find?
            (fun rr => rowGet ["codigo", "texto"] rr "codigo" == PyVal.str "12345")
            [[PyVal.str "12345", PyVal.str "Hello"]]
            = some [PyVal.str "12345", PyVal.str "Hello"] := rfl
        rw [hfind]
        have hgoal := drop_keys_row (PyVal.str "12345") (PyVal.str "12345")
          (PyVal.str "Hello") hncl hnc hrlen
        rw [hgoal]
        simp
      · have hbeq : ((PyVal.str "12345") == PyVal.str k) = false := by
          refine beq_eq_false_iff_ne.mpr (fun he => hk ?_)
          injection he with he2
          exact he2.symm
        have hfind : List.find?
            (fun rr => rowGet ["codigo", "texto"] rr "codigo" == PyVal.str k)
            [[PyVal.str "12345", PyVal.str "Hello"]] = Option.none := by
          simp only [List.find?]
          have : (rowGet ["codigo", "texto"] [PyVal.str "12345", PyVal.str "Hello"] "codigo"
              == PyVal.str k) = false := hbeq
          rw [this]
        rw [hfind]
        have hgoal := drop_keys_row (PyVal.str k) PyVal.none PyVal.none hncl hnc hrlen
        rw [hgoal]
        simp [hk]

/-- Witness for the amended C3: the matched row gets `Hello`, the unmatched
row the missing value. -/
theorem add_text_column_join_witness :
    add_text_column dfJoinW (some docJoin) =
      Except.ok ⟨["Url_Noticia", "texto"],
        [[PyVal.str "https://x/VerNoticia/12345", PyVal.str "Hello"],
         [PyVal.str "nope", PyVal.none]]⟩ := by
  have h := add_text_column_join dfJoinW "Url_Noticia" (by decide) (by decide)
    (by decide) (by decide) (by decide)
  rw [h]
  rfl

/-- Behaviour outside the no-clash hypotheses of `add_text_column_join`,
carried faithfully by the embedding: a table that already has a `codigo`
column makes the merge suffix both `codigo` columns to `codigo_x`/`codigo_y`,
so `drop(columns=["codigo_link", "codigo"])` raises `KeyError`. -/
lemma add_text_column_codigo_clash :
    add_text_column
        ⟨["Url_Noticia", "codigo"],
         [[PyVal.str "https://x/VerNoticia/12345", PyVal.str "zz"]]⟩
        (some docJoin)
      = Except.error () := rfl

/-- Behaviour outside the no-clash hypotheses of `add_text_column_join`:
a table that already has a `texto` column gets `texto_x`/`texto_y` from the
merge's suffixing, and no plain `texto` column is appended. -/
lemma add_text_column_texto_clash :
    add_text_column
        ⟨["Url_Noticia", "texto"],
         [[PyVal.str "https://x/VerNoticia/12345", PyVal.str "old"]]⟩
        (some docJoin)
      = Except.ok ⟨["Url_Noticia", "texto_x", "texto_y"],
          [[PyVal.str "https://x/VerNoticia/12345", PyVal.str "old",
            PyVal.str "Hello"]]⟩ := rfl

end Herramientas
